import Mathlib

/-!
Shallow embedding of the Text-preprocessing repository (src/app.py) and
verification of its specification claims.

The repository is a Streamlit NLP app.  Its core consists of three functions:

* `clean_text` (app.py lines 115-123): lowercase, delete digit runs, delete
  `string.punctuation` characters, collapse non-word-character runs to a
  single space, collapse whitespace runs to a single space, strip HTML tags
  via `BeautifulSoup(...).get_text()`, then `str.strip()`.
* `scrape_webpage` (app.py lines 126-192): fetch a page, decompose
  script/style/nav/footer/header, take a title or a synthesized fallback,
  pick a main-content root and collect heading/paragraph blocks through a
  multi-rule filter, joining the collected blocks with blank lines.
* `preprocess_text` (app.py lines 195-233): for a corpus (list of strings)
  produce five parallel corpora: cleaned, tokenized, filtered (stopwords and
  tokens of length at most 2 removed), stemmed and lemmatized (both mapped
  over the filtered corpus).

External linguistic resources (the NLTK tokenizer, stopword list, Porter
stemmer, WordNet lemmatizer) and the network fetch are not code of this
repository; they enter the embedding as parameters.  Character-level string
operations are embedded over `List Char`, with the character classes of
Python's `str`/`re` modelled on their ASCII behaviour; `str.lower()` is
one-to-many and keeps Unicode's single unconditional one-to-many lowercase
mapping, U+0130 -> U+0069 U+0307 (`pyLower`).
-/

/-- `string.punctuation` from Python's standard library: the 32 ASCII
characters `!"#$%&...~` occupying codepoints 33-47, 58-64, 91-96 and
123-126 (printable ASCII that is neither alphanumeric nor the space). -/
def isPunct (c : Char) : Bool :=
  (33 ≤ c.toNat && c.toNat ≤ 47) || (58 ≤ c.toNat && c.toNat ≤ 64) ||
  (91 ≤ c.toNat && c.toNat ≤ 96) || (123 ≤ c.toNat && c.toNat ≤ 126)

/-- A regex word character (`\w`): alphanumeric or underscore (ASCII model
of Python's `re` classes). -/
def isWordChar (c : Char) : Bool :=
  c.isAlphanum || c == '_'

/-- Auxiliary worker for `collapseRuns`.  The flag records whether the
previous character was part of a run matched by `p`; a run contributes the
single replacement character `r` at its first position. -/
def collapseRunsAux (p : Char → Bool) (r : Char) : Bool → List Char → List Char
  | _, [] => []
  | inRun, c :: cs =>
    if p c then
      (if inRun then collapseRunsAux p r true cs else r :: collapseRunsAux p r true cs)
    else
      c :: collapseRunsAux p r false cs

/-- `re.sub(p+, r, l)`: replace every maximal run of characters matched by
`p` with the single character `r` (models `re.sub(r'\W+', ' ', text)` and
`re.sub(r'\s+', ' ', text)` in `clean_text`). -/
def collapseRuns (p : Char → Bool) (r : Char) (l : List Char) : List Char :=
  collapseRunsAux p r false l

/-- Tag stripping as performed by `BeautifulSoup(text, "html.parser").get_text()`
on flat text: characters between `<` and `>` are markup and are dropped.
In `clean_text` this call receives text from which all ASCII punctuation
(hence every `<`) has already been removed, so it acts as the identity
there; the state flag records whether we are inside a tag. -/
def stripTags : Bool → List Char → List Char
  | _, [] => []
  | false, c :: cs => if c == '<' then stripTags true cs else c :: stripTags false cs
  | true, c :: cs => if c == '>' then stripTags false cs else stripTags true cs

/-- Remove the longest suffix of characters satisfying `q` (the trailing
half of Python's `str.strip()`). -/
def dropTrailing (q : Char → Bool) : List Char → List Char
  | [] => []
  | c :: cs =>
    match dropTrailing q cs with
    | [] => if q c then [] else [c]
    | d :: ds => c :: d :: ds

/-- Python's `str.strip()`: drop leading and trailing whitespace. -/
def stripList (l : List Char) : List Char :=
  dropTrailing Char.isWhitespace (l.dropWhile Char.isWhitespace)

/-- Python's `str.lower()` for one character, as the list of characters it
produces.  Unicode full lowercasing is one-to-many: the single
unconditional one-to-many lowercase mapping is U+0130 (LATIN CAPITAL
LETTER I WITH DOT ABOVE) -> U+0069 U+0307 (`'i'` plus combining dot
above); every other character maps to a single character (modelled per
character on its ASCII behaviour). -/
def pyLower (c : Char) : List Char :=
  if c = Char.ofNat 0x130 then [Char.ofNat 0x69, Char.ofNat 0x307]
  else [Char.toLower c]

/-- The character-level body of `clean_text` (app.py lines 115-123), stage
by stage in source order: `text.lower()` (one-to-many on U+0130);
`re.sub(r'\d+', '', text)`;
`text.translate(str.maketrans('', '', string.punctuation))`;
`re.sub(r'\W+', ' ', text)`; `re.sub(r'\s+', ' ', text)`;
`BeautifulSoup(text, "html.parser").get_text()`; `text.strip()`. -/
def cleanList (l : List Char) : List Char :=
  let s1 := l.flatMap pyLower
  let s2 := s1.filter (fun c => !c.isDigit)
  let s3 := s2.filter (fun c => !isPunct c)
  let s4 := collapseRuns (fun c => !isWordChar c) ' ' s3
  let s5 := collapseRuns (fun c => c.isWhitespace) ' ' s4
  let s6 := stripTags false s5
  stripList s6

/-- `clean_text` from app.py lines 115-123, as a function on strings. -/
def clean_text (text : String) : String :=
  String.mk (cleanList text.toList)

/-- The five parallel corpora returned by `preprocess_text`
(app.py line 233). -/
structure PipelineResult where
  cleaned : List String
  tokenized : List (List String)
  filtered : List (List String)
  stemmed : List (List String)
  lemmatized : List (List String)
  deriving Repr, DecidableEq

/-- `preprocess_text` from app.py lines 195-233, with the external NLTK
resources (`word_tokenize`, `stopwords.words('english')`,
`PorterStemmer().stem`, `WordNetLemmatizer().lemmatize`) as parameters:

* `cleaned_corpus = [clean_text(doc) for doc in corpus]`
* `tokenized_corpus = [word_tokenize(doc) for doc in cleaned_corpus]`
* `filtered_corpus = [[w for w in doc if w not in stop_words and len(w) > 2]
  for doc in tokenized_corpus]`
* `stemmed_corpus = [[stemmer.stem(w) for w in doc] for doc in filtered_corpus]`
* `lemmatized_corpus = [[lemmatizer.lemmatize(w) for w in doc] for doc in
  filtered_corpus]` -/
def preprocess_text (word_tokenize : String → List String) (stop_words : List String)
    (stem lemmatize : String → String) (corpus : List String) : PipelineResult :=
  let cleaned_corpus := corpus.map clean_text
  let tokenized_corpus := cleaned_corpus.map word_tokenize
  let filtered_corpus := tokenized_corpus.map (fun doc =>
    doc.filter (fun word => !stop_words.contains word && decide (2 < word.length)))
  let stemmed_corpus := filtered_corpus.map (fun doc => doc.map stem)
  let lemmatized_corpus := filtered_corpus.map (fun doc => doc.map lemmatize)
  ⟨cleaned_corpus, tokenized_corpus, filtered_corpus, stemmed_corpus, lemmatized_corpus⟩

/-- C1: for every input corpus, the pipeline returns five result corpora
(cleaned, tokenized, filtered, stemmed, lemmatized), each of length equal
to the length of the input corpus, index-aligned to it. -/
theorem C1_pipeline_length_invariant (word_tokenize : String → List String)
    (stop_words : List String) (stem lemmatize : String → String)
    (corpus : List String) :
    (preprocess_text word_tokenize stop_words stem lemmatize corpus).cleaned.length
      = corpus.length ∧
    (preprocess_text word_tokenize stop_words stem lemmatize corpus).tokenized.length
      = corpus.length ∧
    (preprocess_text word_tokenize stop_words stem lemmatize corpus).filtered.length
      = corpus.length ∧
    (preprocess_text word_tokenize stop_words stem lemmatize corpus).stemmed.length
      = corpus.length ∧
    (preprocess_text word_tokenize stop_words stem lemmatize corpus).lemmatized.length
      = corpus.length := by
  simp [preprocess_text]

/-- `getD` on a mapped list, when the mapping function sends the default to
itself: the access commutes with the map at every index. -/
theorem getD_map_fix {α β : Type} (g : α → β) (dα : α) (dβ : β) (h : g dα = dβ)
    (l : List α) (i : Nat) : (l.map g).getD i dβ = g (l.getD i dα) := by
  induction l generalizing i with
  | nil => simpa using h.symm
  | cons hd tl ih =>
    cases i with
    | zero => simp
    | succ n => simpa using ih n

/-- The `filtered` corpus is the elementwise filter of the `tokenized`
corpus (definitional unfolding of `preprocess_text`). -/
theorem preprocess_filtered_eq (word_tokenize : String → List String)
    (stop_words : List String) (stem lemmatize : String → String)
    (corpus : List String) :
    (preprocess_text word_tokenize stop_words stem lemmatize corpus).filtered
      = (preprocess_text word_tokenize stop_words stem lemmatize corpus).tokenized.map
          (fun doc => doc.filter
            (fun word => !stop_words.contains word && decide (2 < word.length))) := rfl

/-- The `stemmed` corpus is the elementwise `stem`-map of the `filtered`
corpus (definitional unfolding of `preprocess_text`). -/
theorem preprocess_stemmed_eq (word_tokenize : String → List String)
    (stop_words : List String) (stem lemmatize : String → String)
    (corpus : List String) :
    (preprocess_text word_tokenize stop_words stem lemmatize corpus).stemmed
      = (preprocess_text word_tokenize stop_words stem lemmatize corpus).filtered.map
          (fun doc => doc.map stem) := rfl

/-- The `lemmatized` corpus is the elementwise `lemmatize`-map of the
`filtered` corpus (definitional unfolding of `preprocess_text`). -/
theorem preprocess_lemmatized_eq (word_tokenize : String → List String)
    (stop_words : List String) (stem lemmatize : String → String)
    (corpus : List String) :
    (preprocess_text word_tokenize stop_words stem lemmatize corpus).lemmatized
      = (preprocess_text word_tokenize stop_words stem lemmatize corpus).filtered.map
          (fun doc => doc.map lemmatize) := rfl

/-- C2: for every document index `i`, every token in `filtered[i]` is
present in `tokenized[i]`, and a token of `tokenized[i]` survives into
`filtered[i]` if and only if it is not a member of the stopword set and its
length is strictly greater than 2 characters. -/
theorem C2_filter_characterization (word_tokenize : String → List String)
    (stop_words : List String) (stem lemmatize : String → String)
    (corpus : List String) (i : Nat) (t : String) :
    t ∈ (preprocess_text word_tokenize stop_words stem lemmatize corpus).filtered.getD i []
      ↔ (t ∈ (preprocess_text word_tokenize stop_words stem lemmatize corpus).tokenized.getD i []
          ∧ t ∉ stop_words ∧ 2 < t.length) := by
  rw [preprocess_filtered_eq,
    getD_map_fix (fun doc => doc.filter
      (fun word => !stop_words.contains word && decide (2 < word.length))) [] [] rfl]
  simp [List.mem_filter, List.contains, List.elem_iff, and_assoc]

/-- C3: for every document index `i`, `stemmed[i]` and `lemmatized[i]` are
each the elementwise map of the stemmer (resp. lemmatizer) over
`filtered[i]` — not chained after one another — so both have the same
length as `filtered[i]`. -/
theorem C3_stem_lemma_from_filtered (word_tokenize : String → List String)
    (stop_words : List String) (stem lemmatize : String → String)
    (corpus : List String) (i : Nat) :
    (preprocess_text word_tokenize stop_words stem lemmatize corpus).stemmed.getD i []
      = ((preprocess_text word_tokenize stop_words stem lemmatize corpus).filtered.getD i []).map stem
    ∧ (preprocess_text word_tokenize stop_words stem lemmatize corpus).lemmatized.getD i []
      = ((preprocess_text word_tokenize stop_words stem lemmatize corpus).filtered.getD i []).map lemmatize
    ∧ ((preprocess_text word_tokenize stop_words stem lemmatize corpus).stemmed.getD i []).length
      = ((preprocess_text word_tokenize stop_words stem lemmatize corpus).filtered.getD i []).length
    ∧ ((preprocess_text word_tokenize stop_words stem lemmatize corpus).lemmatized.getD i []).length
      = ((preprocess_text word_tokenize stop_words stem lemmatize corpus).filtered.getD i []).length := by
  rw [preprocess_stemmed_eq, preprocess_lemmatized_eq,
    getD_map_fix (fun doc => doc.map stem) [] [] rfl,
    getD_map_fix (fun doc => doc.map lemmatize) [] [] rfl]
  simp

/-- C10: for every document index `i`, `filtered[i]` is a subsequence of
`tokenized[i]` (filtering deletes tokens in place, preserving relative
order and duplicate multiplicity), and positions of `stemmed[i]` and
`lemmatized[i]` correspond one-to-one, in order, to positions of
`filtered[i]` (they are its elementwise maps). -/
theorem C10_filter_sublist (word_tokenize : String → List String)
    (stop_words : List String) (stem lemmatize : String → String)
    (corpus : List String) (i : Nat) :
    List.Sublist
      ((preprocess_text word_tokenize stop_words stem lemmatize corpus).filtered.getD i [])
      ((preprocess_text word_tokenize stop_words stem lemmatize corpus).tokenized.getD i [])
    ∧ (preprocess_text word_tokenize stop_words stem lemmatize corpus).stemmed.getD i []
      = ((preprocess_text word_tokenize stop_words stem lemmatize corpus).filtered.getD i []).map stem
    ∧ (preprocess_text word_tokenize stop_words stem lemmatize corpus).lemmatized.getD i []
      = ((preprocess_text word_tokenize stop_words stem lemmatize corpus).filtered.getD i []).map lemmatize := by
  refine ⟨?_, ?_, ?_⟩
  · rw [preprocess_filtered_eq,
      getD_map_fix (fun doc => doc.filter
        (fun word => !stop_words.contains word && decide (2 < word.length))) [] [] rfl]
    exact List.filter_sublist _
  · rw [preprocess_stemmed_eq, getD_map_fix (fun doc => doc.map stem) [] [] rfl]
  · rw [preprocess_lemmatized_eq, getD_map_fix (fun doc => doc.map lemmatize) [] [] rfl]

/-- C9: the pipeline is a total function of the corpus (it always returns a
`PipelineResult`), and an empty-string document yields empty outputs at
every stage: empty cleaned string and empty token lists for tokenized,
filtered, stemmed and lemmatized.  The behaviour of the external tokenizer
on the empty string (`word_tokenize("") == []` for NLTK) enters as the
hypothesis `htok`. -/
theorem C9_empty_document_empty_outputs (word_tokenize : String → List String)
    (stop_words : List String) (stem lemmatize : String → String)
    (corpus : List String) (i : Nat) (hi : i < corpus.length)
    (htok : word_tokenize "" = []) (hdoc : corpus.getD i "" = "") :
    (preprocess_text word_tokenize stop_words stem lemmatize corpus).cleaned.getD i "" = ""
    ∧ (preprocess_text word_tokenize stop_words stem lemmatize corpus).tokenized.getD i [] = []
    ∧ (preprocess_text word_tokenize stop_words stem lemmatize corpus).filtered.getD i [] = []
    ∧ (preprocess_text word_tokenize stop_words stem lemmatize corpus).stemmed.getD i [] = []
    ∧ (preprocess_text word_tokenize stop_words stem lemmatize corpus).lemmatized.getD i [] = [] := by
  have hclean : clean_text "" = "" := rfl
  have h1 : (preprocess_text word_tokenize stop_words stem lemmatize corpus).cleaned.getD i ""
      = clean_text (corpus.getD i "") := getD_map_fix clean_text "" "" hclean corpus i
  have h2 : (preprocess_text word_tokenize stop_words stem lemmatize corpus).tokenized
      = corpus.map (fun doc => word_tokenize (clean_text doc)) := by
    show (corpus.map clean_text).map word_tokenize = _
    rw [List.map_map]
    rfl
  have h3 : (preprocess_text word_tokenize stop_words stem lemmatize corpus).tokenized.getD i []
      = word_tokenize (clean_text (corpus.getD i "")) := by
    rw [h2]
    exact getD_map_fix (fun doc => word_tokenize (clean_text doc)) "" []
      (by simp [hclean, htok]) corpus i
  have h4 : (preprocess_text word_tokenize stop_words stem lemmatize corpus).filtered.getD i [] = [] := by
    rw [preprocess_filtered_eq,
      getD_map_fix (fun doc => doc.filter
        (fun word => !stop_words.contains word && decide (2 < word.length))) [] [] rfl,
      h3, hdoc, hclean, htok]
    rfl
  refine ⟨by rw [h1, hdoc, hclean], by rw [h3, hdoc, hclean, htok], h4, ?_, ?_⟩
  · rw [preprocess_stemmed_eq, getD_map_fix (fun doc => doc.map stem) [] [] rfl, h4]
    rfl
  · rw [preprocess_lemmatized_eq, getD_map_fix (fun doc => doc.map lemmatize) [] [] rfl, h4]
    rfl

/-- Witness for C9 at the concrete corpus `[""]`, index 0, with a concrete
tokenizer that maps every string to `[]`. -/
theorem C9_empty_document_empty_outputs_witness :
    (preprocess_text (fun _ => []) [] id id [""]).cleaned.getD 0 "" = ""
    ∧ (preprocess_text (fun _ => []) [] id id [""]).tokenized.getD 0 [] = []
    ∧ (preprocess_text (fun _ => []) [] id id [""]).filtered.getD 0 [] = []
    ∧ (preprocess_text (fun _ => []) [] id id [""]).stemmed.getD 0 [] = []
    ∧ (preprocess_text (fun _ => []) [] id id [""]).lemmatized.getD 0 [] = [] :=
  C9_empty_document_empty_outputs (fun _ => []) [] id id [""] 0 (by decide) rfl rfl


/-- No two adjacent characters of the list both satisfy `p`. -/
def noTwoAdjacent (p : Char → Bool) : List Char → Bool
  | a :: b :: t => (!(p a && p b)) && noTwoAdjacent p (b :: t)
  | _ => true

/-- The last character of the list (if any) does not satisfy `q`. -/
def noTrailing (q : Char → Bool) : List Char → Bool
  | [] => true
  | [c] => !q c
  | _ :: c :: cs => noTrailing q (c :: cs)

/-- A character that `clean_text` can leave in its output: a word character
or a space, not a digit, not punctuation, and fixed by lowercasing. -/
def cleanFixed (c : Char) : Bool :=
  (isWordChar c || c == ' ') && !c.isDigit && !isPunct c && (Char.toLower c == c)

theorem toLower_eq (c : Char) :
    Char.toLower c = if c.toNat ≥ 65 ∧ c.toNat ≤ 90 then Char.ofNat (c.toNat + 32) else c := rfl

theorem toLower_toLower (c : Char) :
    Char.toLower (Char.toLower c) = Char.toLower c := by
  by_cases h : c.toNat ≥ 65 ∧ c.toNat ≤ 90
  · have hval : (c.toNat + 32).isValidChar := Or.inl (by omega)
    have hv : (Char.ofNat (c.toNat + 32)).toNat = c.toNat + 32 := by
      unfold Char.ofNat
      rw [dif_pos hval]
      rfl
    rw [toLower_eq c, if_pos h, toLower_eq, if_neg (by rw [hv]; omega)]
  · rw [toLower_eq c, if_neg h, toLower_eq c, if_neg h]

/-- Every character produced by `pyLower` is fixed by lowercasing. -/
theorem pyLower_fixed (c c2 : Char) (h : c2 ∈ pyLower c) :
    Char.toLower c2 = c2 := by
  unfold pyLower at h
  by_cases hc : c = Char.ofNat 0x130
  · rw [if_pos hc] at h
    rcases List.mem_cons.1 h with h1 | h1
    · subst h1
      decide
    · rw [List.mem_singleton] at h1
      subst h1
      decide
  · rw [if_neg hc, List.mem_singleton] at h
    subst h
    exact toLower_toLower c

/-- On a character other than U+0130 that lowercasing fixes, `pyLower` is
the identity. -/
theorem pyLower_eq_self (c : Char) (hne : c ≠ Char.ofNat 0x130)
    (hfx : Char.toLower c = c) : pyLower c = [c] := by
  unfold pyLower
  rw [if_neg hne, hfx]

theorem flatMap_pyLower_id (l : List Char) (h : ∀ c ∈ l, pyLower c = [c]) :
    l.flatMap pyLower = l := by
  induction l with
  | nil => rfl
  | cons a t ih =>
    rw [List.flatMap_cons, h a (List.mem_cons_self a t),
      ih (fun c hc => h c (List.mem_cons_of_mem a hc))]
    rfl

/-- On input free of U+0130 the lowering stage preserves length. -/
theorem length_flatMap_pyLower (l : List Char)
    (h : ∀ c ∈ l, c ≠ Char.ofNat 0x130) :
    (l.flatMap pyLower).length = l.length := by
  induction l with
  | nil => rfl
  | cons a t ih =>
    rw [List.flatMap_cons,
      show pyLower a = [Char.toLower a] from by
        unfold pyLower
        rw [if_neg (h a (List.mem_cons_self a t))]]
    simp [ih (fun c hc => h c (List.mem_cons_of_mem a hc))]

theorem isWordChar_not_whitespace (c : Char) (h : isWordChar c = true) :
    c.isWhitespace = false := by
  cases hb : c.isWhitespace
  · rfl
  · exfalso
    have hcases : c = ' ' ∨ c = '\t' ∨ c = '\x0d' ∨ c = '\n' := by
      have hb2 := hb
      simp [Char.isWhitespace] at hb2
      tauto
    rcases hcases with h1 | h1 | h1 | h1 <;> subst h1 <;> simp [isWordChar] at h

theorem noTwoAdjacent_cons (p : Char → Bool) (a : Char) (l : List Char) :
    noTwoAdjacent p (a :: l) = true
      ↔ noTwoAdjacent p l = true ∧ ∀ b, l.head? = some b → (p a && p b) = false := by
  cases l with
  | nil => simp [noTwoAdjacent]
  | cons b t =>
    simp only [noTwoAdjacent, Bool.and_eq_true, Bool.not_eq_true', Bool.and_eq_false_iff,
      List.head?_cons, Option.some.injEq]
    constructor
    · rintro ⟨h1, h2⟩
      exact ⟨h2, fun x hx => hx ▸ h1⟩
    · rintro ⟨h1, h2⟩
      exact ⟨h2 b rfl, h1⟩

theorem noTwoAdjacent_tail (p : Char → Bool) (a : Char) (l : List Char)
    (h : noTwoAdjacent p (a :: l) = true) : noTwoAdjacent p l = true :=
  ((noTwoAdjacent_cons p a l).1 h).1

theorem noTwoAdjacent_mono (p q : Char → Bool) (l : List Char)
    (himp : ∀ c ∈ l, p c = true → q c = true)
    (h : noTwoAdjacent q l = true) : noTwoAdjacent p l = true := by
  induction l with
  | nil => rfl
  | cons a t ih =>
    rw [noTwoAdjacent_cons] at h ⊢
    refine ⟨ih (fun c hc => himp c (List.mem_cons_of_mem a hc)) h.1, ?_⟩
    intro b hb
    cases hpa : p a with
    | false => simp
    | true =>
      cases hpb : p b with
      | false => simp
      | true =>
        have hbmem : b ∈ t := by
          cases t with
          | nil => simp at hb
          | cons x xs =>
            simp only [List.head?_cons, Option.some.injEq] at hb
            subst hb
            exact List.mem_cons_self x xs
        have hqa := himp a (List.mem_cons_self a t) hpa
        have hqb := himp b (List.mem_cons_of_mem a hbmem) hpb
        have hcontra := h.2 b hb
        rw [hqa, hqb] at hcontra
        simp at hcontra

theorem collapseRunsAux_cons_pos_true (p : Char → Bool) (r a : Char) (t : List Char)
    (h : p a = true) :
    collapseRunsAux p r true (a :: t) = collapseRunsAux p r true t := by
  simp [collapseRunsAux, h]

theorem collapseRunsAux_cons_pos_false (p : Char → Bool) (r a : Char) (t : List Char)
    (h : p a = true) :
    collapseRunsAux p r false (a :: t) = r :: collapseRunsAux p r true t := by
  simp [collapseRunsAux, h]

theorem collapseRunsAux_cons_neg (p : Char → Bool) (r : Char) (b : Bool) (a : Char)
    (t : List Char) (h : p a = false) :
    collapseRunsAux p r b (a :: t) = a :: collapseRunsAux p r false t := by
  simp [collapseRunsAux, h]

theorem mem_collapseRunsAux (p : Char → Bool) (r c : Char) :
    ∀ (b : Bool) (l : List Char), c ∈ collapseRunsAux p r b l →
      c = r ∨ (c ∈ l ∧ p c = false) := by
  intro b l
  induction l generalizing b with
  | nil =>
    intro h
    simp [collapseRunsAux] at h
  | cons a t ih =>
    intro h
    by_cases hpa : p a = true
    · cases b with
      | true =>
        rw [collapseRunsAux_cons_pos_true p r a t hpa] at h
        rcases ih true h with h1 | ⟨h1, h2⟩
        · exact Or.inl h1
        · exact Or.inr ⟨List.mem_cons_of_mem a h1, h2⟩
      | false =>
        rw [collapseRunsAux_cons_pos_false p r a t hpa] at h
        rcases List.mem_cons.1 h with h1 | h1
        · exact Or.inl h1
        · rcases ih true h1 with h2 | ⟨h2, h3⟩
          · exact Or.inl h2
          · exact Or.inr ⟨List.mem_cons_of_mem a h2, h3⟩
    · have hpa2 : p a = false := by simpa using hpa
      rw [collapseRunsAux_cons_neg p r b a t hpa2] at h
      rcases List.mem_cons.1 h with h1 | h1
      · subst h1
        exact Or.inr ⟨List.mem_cons_self c t, hpa2⟩
      · rcases ih false h1 with h2 | ⟨h2, h3⟩
        · exact Or.inl h2
        · exact Or.inr ⟨List.mem_cons_of_mem a h2, h3⟩

theorem length_collapseRunsAux (p : Char → Bool) (r : Char) :
    ∀ (b : Bool) (l : List Char), (collapseRunsAux p r b l).length ≤ l.length := by
  intro b l
  induction l generalizing b with
  | nil => simp [collapseRunsAux]
  | cons a t ih =>
    by_cases hpa : p a = true
    · cases b with
      | true =>
        rw [collapseRunsAux_cons_pos_true p r a t hpa]
        exact Nat.le_succ_of_le (ih true)
      | false =>
        rw [collapseRunsAux_cons_pos_false p r a t hpa]
        simpa using ih true
    · have hpa2 : p a = false := by simpa using hpa
      rw [collapseRunsAux_cons_neg p r b a t hpa2]
      simpa using ih false

theorem head_collapseRunsAux_true (p : Char → Bool) (r : Char) :
    ∀ (l : List Char) (c : Char), (collapseRunsAux p r true l).head? = some c →
      p c = false := by
  intro l
  induction l with
  | nil =>
    intro c h
    simp [collapseRunsAux] at h
  | cons a t ih =>
    intro c h
    by_cases hpa : p a = true
    · rw [collapseRunsAux_cons_pos_true p r a t hpa] at h
      exact ih c h
    · have hpa2 : p a = false := by simpa using hpa
      rw [collapseRunsAux_cons_neg p r true a t hpa2] at h
      simp only [List.head?_cons, Option.some.injEq] at h
      subst h
      exact hpa2

theorem noTwoAdjacent_collapseRunsAux (p : Char → Bool) (r : Char) (hr : p r = true) :
    ∀ (b : Bool) (l : List Char), noTwoAdjacent p (collapseRunsAux p r b l) = true := by
  intro b l
  induction l generalizing b with
  | nil => rfl
  | cons a t ih =>
    by_cases hpa : p a = true
    · cases b with
      | true =>
        rw [collapseRunsAux_cons_pos_true p r a t hpa]
        exact ih true
      | false =>
        rw [collapseRunsAux_cons_pos_false p r a t hpa]
        rw [noTwoAdjacent_cons]
        refine ⟨ih true, ?_⟩
        intro x hx
        have := head_collapseRunsAux_true p r t x hx
        simp [this]
    · have hpa2 : p a = false := by simpa using hpa
      rw [collapseRunsAux_cons_neg p r b a t hpa2]
      rw [noTwoAdjacent_cons]
      refine ⟨ih false, ?_⟩
      intro x _
      simp [hpa2]

theorem collapseRunsAux_true_eq_false (p : Char → Bool) (r : Char) (l : List Char)
    (h : ∀ c, l.head? = some c → p c = false) :
    collapseRunsAux p r true l = collapseRunsAux p r false l := by
  cases l with
  | nil => rfl
  | cons a t =>
    have hpa : p a = false := h a rfl
    rw [collapseRunsAux_cons_neg p r true a t hpa, collapseRunsAux_cons_neg p r false a t hpa]

theorem collapseRunsAux_false_id (p : Char → Bool) (r : Char) :
    ∀ (l : List Char), (∀ c ∈ l, p c = true → c = r) →
      noTwoAdjacent p l = true → collapseRunsAux p r false l = l := by
  intro l
  induction l with
  | nil => intro _ _; rfl
  | cons a t ih =>
    intro hall hadj
    by_cases hpa : p a = true
    · have har : a = r := hall a (List.mem_cons_self a t) hpa
      rw [collapseRunsAux_cons_pos_false p r a t hpa]
      have hhead : ∀ c, t.head? = some c → p c = false := by
        intro c hc
        have := ((noTwoAdjacent_cons p a t).1 hadj).2 c hc
        rw [hpa] at this
        simpa using this
      rw [collapseRunsAux_true_eq_false p r t hhead,
        ih (fun c hc hpc => hall c (List.mem_cons_of_mem a hc) hpc)
          (noTwoAdjacent_tail p a t hadj), har]
    · have hpa2 : p a = false := by simpa using hpa
      rw [collapseRunsAux_cons_neg p r false a t hpa2,
        ih (fun c hc hpc => hall c (List.mem_cons_of_mem a hc) hpc)
          (noTwoAdjacent_tail p a t hadj)]

theorem stripTags_id (l : List Char) (h : ∀ c ∈ l, c ≠ '<') :
    stripTags false l = l := by
  induction l with
  | nil => rfl
  | cons a t ih =>
    have ha : (a == '<') = false := by
      have := h a (List.mem_cons_self a t)
      simpa using this
    simp only [stripTags, ha, Bool.false_eq_true, if_false]
    rw [ih (fun c hc => h c (List.mem_cons_of_mem a hc))]

theorem mem_dropWhile (q : Char → Bool) (l : List Char) (c : Char)
    (h : c ∈ l.dropWhile q) : c ∈ l := by
  induction l with
  | nil => simpa using h
  | cons a t ih =>
    by_cases hqa : q a = true
    · rw [List.dropWhile_cons_of_pos hqa] at h
      exact List.mem_cons_of_mem a (ih h)
    · have hqa2 : q a = false := by simpa using hqa
      rw [List.dropWhile_cons_of_neg (by simp [hqa2])] at h
      exact h

theorem length_dropWhile_le (q : Char → Bool) (l : List Char) :
    (l.dropWhile q).length ≤ l.length := by
  induction l with
  | nil => simp
  | cons a t ih =>
    by_cases hqa : q a = true
    · rw [List.dropWhile_cons_of_pos hqa]
      exact Nat.le_succ_of_le ih
    · rw [List.dropWhile_cons_of_neg (by simpa using hqa)]

theorem noTwoAdjacent_dropWhile (p q : Char → Bool) (l : List Char)
    (h : noTwoAdjacent p l = true) : noTwoAdjacent p (l.dropWhile q) = true := by
  induction l with
  | nil => rfl
  | cons a t ih =>
    by_cases hqa : q a = true
    · rw [List.dropWhile_cons_of_pos hqa]
      exact ih (noTwoAdjacent_tail p a t h)
    · rw [List.dropWhile_cons_of_neg (by simpa using hqa)]
      exact h

theorem head_dropWhile (q : Char → Bool) (l : List Char) (c : Char)
    (h : (l.dropWhile q).head? = some c) : q c = false := by
  induction l with
  | nil => simp [List.dropWhile] at h
  | cons a t ih =>
    by_cases hqa : q a = true
    · rw [List.dropWhile_cons_of_pos hqa] at h
      exact ih h
    · have hqa2 : q a = false := by simpa using hqa
      rw [List.dropWhile_cons_of_neg (by simp [hqa2])] at h
      simp only [List.head?_cons, Option.some.injEq] at h
      subst h
      exact hqa2

theorem dropWhile_id (q : Char → Bool) (l : List Char)
    (h : ∀ c, l.head? = some c → q c = false) : l.dropWhile q = l := by
  cases l with
  | nil => rfl
  | cons a t => exact List.dropWhile_cons_of_neg (by simp [h a rfl])

theorem mem_dropTrailing (q : Char → Bool) :
    ∀ (l : List Char) (c : Char), c ∈ dropTrailing q l → c ∈ l := by
  intro l
  induction l with
  | nil =>
    intro c h
    simpa [dropTrailing] using h
  | cons a t ih =>
    intro c h
    simp only [dropTrailing] at h
    cases hdt : dropTrailing q t with
    | nil =>
      rw [hdt] at h
      by_cases hqa : q a = true
      · rw [if_pos hqa] at h
        simp at h
      · rw [if_neg hqa] at h
        simp only [List.mem_singleton] at h
        subst h
        exact List.mem_cons_self c t
    | cons d ds =>
      rw [hdt] at h
      rcases List.mem_cons.1 h with h1 | h1
      · subst h1
        exact List.mem_cons_self c t
      · exact List.mem_cons_of_mem a (ih c (hdt ▸ h1))

theorem length_dropTrailing_le (q : Char → Bool) :
    ∀ (l : List Char), (dropTrailing q l).length ≤ l.length := by
  intro l
  induction l with
  | nil => simp [dropTrailing]
  | cons a t ih =>
    simp only [dropTrailing]
    cases hdt : dropTrailing q t with
    | nil =>
      by_cases hqa : q a = true
      · rw [if_pos hqa]
        simp
      · rw [if_neg hqa]
        simp
    | cons d ds =>
      simp only [List.length_cons]
      have := ih
      rw [hdt] at this
      simpa using Nat.succ_le_succ this

theorem head_dropTrailing (q : Char → Bool) (l : List Char) (d : Char) (ds : List Char)
    (h : dropTrailing q l = d :: ds) : l.head? = some d := by
  cases l with
  | nil => simp [dropTrailing] at h
  | cons a t =>
    simp only [dropTrailing] at h
    cases hdt : dropTrailing q t with
    | nil =>
      rw [hdt] at h
      by_cases hqa : q a = true
      · rw [if_pos hqa] at h
        simp at h
      · rw [if_neg hqa] at h
        simp only [List.cons.injEq] at h
        simp [h.1]
    | cons e es =>
      rw [hdt] at h
      simp only [List.cons.injEq] at h
      simp [h.1]

theorem noTwoAdjacent_dropTrailing (p q : Char → Bool) :
    ∀ (l : List Char), noTwoAdjacent p l = true →
      noTwoAdjacent p (dropTrailing q l) = true := by
  intro l
  induction l with
  | nil => intro _; rfl
  | cons a t ih =>
    intro h
    simp only [dropTrailing]
    cases hdt : dropTrailing q t with
    | nil =>
      by_cases hqa : q a = true
      · rw [if_pos hqa]; rfl
      · rw [if_neg hqa]; rfl
    | cons d ds =>
      rw [noTwoAdjacent_cons]
      constructor
      · have := ih (noTwoAdjacent_tail p a t h)
        rw [hdt] at this
        exact this
      · intro b hb
        simp only [List.head?_cons, Option.some.injEq] at hb
        subst hb
        have hhead : t.head? = some d := head_dropTrailing q t d ds hdt
        exact ((noTwoAdjacent_cons p a t).1 h).2 d hhead

theorem noTrailing_dropTrailing (q : Char → Bool) :
    ∀ (l : List Char), noTrailing q (dropTrailing q l) = true := by
  intro l
  induction l with
  | nil => rfl
  | cons a t ih =>
    simp only [dropTrailing]
    cases hdt : dropTrailing q t with
    | nil =>
      by_cases hqa : q a = true
      · rw [if_pos hqa]; rfl
      · have hqa2 : q a = false := by simpa using hqa
        rw [if_neg hqa]
        simp [noTrailing, hqa2]
    | cons d ds =>
      have := ih
      rw [hdt] at this
      simpa [noTrailing] using this

theorem dropTrailing_id (q : Char → Bool) :
    ∀ (l : List Char), noTrailing q l = true → dropTrailing q l = l := by
  intro l
  induction l with
  | nil => intro _; rfl
  | cons a t ih =>
    intro h
    simp only [dropTrailing]
    cases t with
    | nil =>
      have hqa : q a = false := by simpa [noTrailing] using h
      simp [dropTrailing, hqa]
    | cons b ts =>
      have hts : noTrailing q (b :: ts) = true := by simpa [noTrailing] using h
      rw [ih hts]

/-- Unfolded form of `cleanList` (the `let` chain written out). -/
theorem cleanList_eq (l : List Char) :
    cleanList l = stripList (stripTags false
      (collapseRuns (fun c => c.isWhitespace) ' '
        (collapseRuns (fun c => !isWordChar c) ' '
          (((l.flatMap pyLower).filter (fun c => !c.isDigit)).filter
            (fun c => !isPunct c))))) := rfl

/-- Every character surviving the two run-collapsing stages is a word
character or the space inserted by the collapsing. -/
theorem spaceOrWord_after_collapse (m : List Char) :
    ∀ c ∈ collapseRuns (fun c => c.isWhitespace) ' '
        (collapseRuns (fun c => !isWordChar c) ' ' m),
      isWordChar c = true ∨ c = ' ' := by
  intro c hc
  rcases mem_collapseRunsAux _ ' ' c false _ hc with h1 | ⟨h1, _⟩
  · exact Or.inr h1
  · rcases mem_collapseRunsAux _ ' ' c false _ h1 with h2 | ⟨_, h3⟩
    · exact Or.inr h2
    · exact Or.inl (by simpa using h3)

theorem no_lt_after_collapse (m : List Char) :
    ∀ c ∈ collapseRuns (fun c => c.isWhitespace) ' '
        (collapseRuns (fun c => !isWordChar c) ' ' m),
      c ≠ '<' := by
  intro c hc heq
  subst heq
  rcases spaceOrWord_after_collapse m _ hc with h | h
  · simp [isWordChar] at h
  · simp at h

/-- The `BeautifulSoup` stage of `clean_text` is the identity: by the time
it runs, every `<` has been removed (it is punctuation). -/
theorem stripTags_stage_id (m : List Char) :
    stripTags false
      (collapseRuns (fun c => c.isWhitespace) ' '
        (collapseRuns (fun c => !isWordChar c) ' ' m))
    = collapseRuns (fun c => c.isWhitespace) ' '
        (collapseRuns (fun c => !isWordChar c) ' ' m) :=
  stripTags_id _ (no_lt_after_collapse m)

/-- Every character of `cleanList l` is a lowercase-fixed word character or
space, neither a digit nor punctuation. -/
theorem cleanList_all_fixed (l : List Char) :
    ∀ c ∈ cleanList l, cleanFixed c = true := by
  intro c hc
  rw [cleanList_eq, stripTags_stage_id] at hc
  have hc5 := mem_dropWhile Char.isWhitespace _ c (mem_dropTrailing Char.isWhitespace _ c hc)
  rcases mem_collapseRunsAux _ ' ' c false _ hc5 with h1 | ⟨h1, _⟩
  · subst h1
    decide
  · rcases mem_collapseRunsAux _ ' ' c false _ h1 with h2 | ⟨h2, h3⟩
    · subst h2
      decide
    · have hword : isWordChar c = true := by simpa using h3
      have hpunct : isPunct c = false := by
        have := (List.mem_filter.1 h2).2
        simpa using this
      have h2b := (List.mem_filter.1 h2).1
      have hdigit : c.isDigit = false := by
        have := (List.mem_filter.1 h2b).2
        simpa using this
      have h1b := (List.mem_filter.1 h2b).1
      rcases List.mem_flatMap.1 h1b with ⟨c0, _, hc0⟩
      have hlow : Char.toLower c = c := pyLower_fixed c0 c hc0
      simp [cleanFixed, hword, hpunct, hdigit, hlow]

/-- `cleanList` output has no two adjacent whitespace characters. -/
theorem cleanList_noTwoAdjacent (l : List Char) :
    noTwoAdjacent Char.isWhitespace (cleanList l) = true := by
  rw [cleanList_eq, stripTags_stage_id]
  exact noTwoAdjacent_dropTrailing _ _ _
    (noTwoAdjacent_dropWhile _ _ _
      (noTwoAdjacent_collapseRunsAux Char.isWhitespace ' ' (by decide) false _))

/-- The first character of `cleanList l` (if any) is not whitespace. -/
theorem cleanList_head (l : List Char) :
    ∀ c, (cleanList l).head? = some c → c.isWhitespace = false := by
  intro c hc
  rw [cleanList_eq] at hc
  cases hsl : stripList (stripTags false
      (collapseRuns (fun c => c.isWhitespace) ' '
        (collapseRuns (fun c => !isWordChar c) ' '
          (((l.flatMap pyLower).filter (fun c => !c.isDigit)).filter
            (fun c => !isPunct c))))) with
  | nil => rw [hsl] at hc; simp at hc
  | cons d ds =>
    rw [hsl] at hc
    simp only [List.head?_cons, Option.some.injEq] at hc
    subst hc
    have := head_dropTrailing Char.isWhitespace _ d ds hsl
    exact head_dropWhile Char.isWhitespace _ d this

/-- The last character of `cleanList l` (if any) is not whitespace. -/
theorem cleanList_noTrailing (l : List Char) :
    noTrailing Char.isWhitespace (cleanList l) = true := by
  rw [cleanList_eq]
  exact noTrailing_dropTrailing Char.isWhitespace _

theorem cleanFixed_unpack (c : Char) (h : cleanFixed c = true) :
    (isWordChar c = true ∨ c = ' ') ∧ c.isDigit = false ∧ isPunct c = false
      ∧ Char.toLower c = c := by
  simp only [cleanFixed, Bool.and_eq_true, Bool.or_eq_true, Bool.not_eq_true',
    beq_iff_eq] at h
  exact ⟨h.1.1.1, h.1.1.2, h.1.2, h.2⟩

/-- `cleanList` is the identity on lists satisfying its own output
invariant: only lowercase-fixed word characters and single spaces, no
digits, no punctuation, no leading or trailing whitespace. -/
theorem cleanList_id_of_inv (l : List Char)
    (hfix : ∀ c ∈ l, cleanFixed c = true)
    (hadj : noTwoAdjacent Char.isWhitespace l = true)
    (hhead : ∀ c, l.head? = some c → c.isWhitespace = false)
    (htrail : noTrailing Char.isWhitespace l = true) :
    cleanList l = l := by
  have hsw : ∀ c ∈ l, isWordChar c = true ∨ c = ' ' :=
    fun c hc => (cleanFixed_unpack c (hfix c hc)).1
  have h1 : l.flatMap pyLower = l :=
    flatMap_pyLower_id l (fun c hc =>
      pyLower_eq_self c
        (fun he => absurd (he ▸ hfix c hc) (by decide))
        ((cleanFixed_unpack c (hfix c hc)).2.2.2))
  have h2 : l.filter (fun c => !c.isDigit) = l :=
    List.filter_eq_self.2 (fun c hc => by
      simp [(cleanFixed_unpack c (hfix c hc)).2.1])
  have h3 : l.filter (fun c => !isPunct c) = l :=
    List.filter_eq_self.2 (fun c hc => by
      simp [(cleanFixed_unpack c (hfix c hc)).2.2.1])
  have h4 : collapseRuns (fun c => !isWordChar c) ' ' l = l := by
    apply collapseRunsAux_false_id
    · intro c hc hpc
      rcases hsw c hc with hw | hsp
      · rw [hw] at hpc
        simp at hpc
      · exact hsp
    · apply noTwoAdjacent_mono _ Char.isWhitespace l _ hadj
      intro c hc hpc
      rcases hsw c hc with hw | hsp
      · rw [hw] at hpc
        simp at hpc
      · subst hsp
        rfl
  have h5 : collapseRuns (fun c => c.isWhitespace) ' ' l = l := by
    apply collapseRunsAux_false_id
    · intro c hc hpc
      rcases hsw c hc with hw | hsp
      · rw [isWordChar_not_whitespace c hw] at hpc
        simp at hpc
      · exact hsp
    · exact hadj
  have h6 : stripTags false l = l := by
    apply stripTags_id
    intro c hc heq
    subst heq
    have := hfix _ hc
    simp [cleanFixed, isWordChar, isPunct] at this
  have h7 : l.dropWhile Char.isWhitespace = l := dropWhile_id _ l hhead
  have h8 : dropTrailing Char.isWhitespace l = l := dropTrailing_id _ l htrail
  rw [cleanList_eq, h1, h2, h3, h4, h5, h6]
  simp only [stripList]
  rw [h7, h8]

theorem cleanList_idem (l : List Char) : cleanList (cleanList l) = cleanList l :=
  cleanList_id_of_inv (cleanList l) (cleanList_all_fixed l)
    (cleanList_noTwoAdjacent l) (cleanList_head l) (cleanList_noTrailing l)

/-- On documents free of U+0130 every stage of `cleanList` is
length-non-increasing (the lowering stage is then one-to-one). -/
theorem cleanList_length_le (l : List Char)
    (hl : ∀ c ∈ l, c ≠ Char.ofNat 0x130) :
    (cleanList l).length ≤ l.length := by
  rw [cleanList_eq, stripTags_stage_id]
  refine Nat.le_trans (length_dropTrailing_le _ _) (Nat.le_trans (length_dropWhile_le _ _) ?_)
  refine Nat.le_trans (length_collapseRunsAux _ ' ' false _) ?_
  refine Nat.le_trans (length_collapseRunsAux _ ' ' false _) ?_
  refine Nat.le_trans (List.length_filter_le _ _) ?_
  refine Nat.le_trans (List.length_filter_le _ _) ?_
  rw [length_flatMap_pyLower l hl]

/-- C5: for every document `d`, `clean_text d` contains no digit
characters, no punctuation characters, and no run of two or more
consecutive spaces. -/
theorem C5_clean_no_digit_no_punct_no_double_space (d : String) :
    (∀ c ∈ (clean_text d).toList, c.isDigit = false ∧ isPunct c = false)
    ∧ noTwoAdjacent (fun c => c == ' ') (clean_text d).toList = true := by
  have htl : (clean_text d).toList = cleanList d.toList := rfl
  rw [htl]
  constructor
  · intro c hc
    have h := cleanFixed_unpack c (cleanList_all_fixed d.toList c hc)
    exact ⟨h.2.1, h.2.2.1⟩
  · apply noTwoAdjacent_mono _ Char.isWhitespace _ _ (cleanList_noTwoAdjacent d.toList)
    intro c _ hcsp
    have hc : c = ' ' := by simpa using hcsp
    subst hc
    rfl

/-- C6: the clean stage is idempotent: `clean_text (clean_text d) =
clean_text d` for every document `d`. -/
theorem C6_clean_idempotent (d : String) :
    clean_text (clean_text d) = clean_text d := by
  show String.mk (cleanList (cleanList d.toList)) = String.mk (cleanList d.toList)
  rw [cleanList_idem]

/-- C7 counterexample: on the two-character document U+0130 `a` the
cleaned output is **longer** than the input.  Python's `str.lower()` maps
U+0130 to the two characters `'i'` U+0307; the combining dot is not a word
character, so `re.sub(r'\W+', ' ', ...)` turns it into a space, giving
`"i a"` of length 3 from an input of length 2. -/
theorem C7_counterexample_dotted_capital_i :
    ¬ ((clean_text (String.mk [Char.ofNat 0x130, Char.ofNat 0x61])).length
        ≤ (String.mk [Char.ofNat 0x130, Char.ofNat 0x61]).length) := by
  decide

/-- C7 (amended): for every document `d` that contains no occurrence of
U+0130 (LATIN CAPITAL LETTER I WITH DOT ABOVE, the one character whose
lowercasing is one-to-many), the cleaned output is never longer than the
input: `(clean_text d).length ≤ d.length`. -/
theorem C7_clean_length_le (d : String)
    (hd : ∀ c ∈ d.toList, c ≠ Char.ofNat 0x130) :
    (clean_text d).length ≤ d.length := by
  show (cleanList d.toList).length ≤ d.toList.length
  exact cleanList_length_le d.toList hd

/-- Closed instance of the amended C7 at a concrete document. -/
theorem C7_clean_length_le_witness :
    (∀ c ∈ ("The Dog 123!" : String).toList, c ≠ Char.ofNat 0x130)
    ∧ (clean_text "The Dog 123!").length ≤ ("The Dog 123!" : String).length :=
  ⟨by decide, C7_clean_length_le "The Dog 123!" (by decide)⟩

mutual
/-- Parsed HTML as produced by `BeautifulSoup(response.content, "html.parser")`:
an element with a tag name, attributes and children, or a text node. -/
inductive Html where
  | elem (tag : String) (attrs : List (String × String)) (children : HtmlList)
  | text (s : String)
/-- The (mutually inductive) list of sibling nodes; the soup object itself
is the list of top-level nodes of the document. -/
inductive HtmlList where
  | nil
  | cons (h : Html) (t : HtmlList)
end

/-- Build an `HtmlList` from an ordinary list of nodes. -/
def HtmlList.ofList : List Html → HtmlList
  | [] => .nil
  | h :: t => .cons h (HtmlList.ofList t)

mutual
/-- `element.decompose()` applied to every descendant element whose tag is
in `bad` (app.py lines 145-146): returns `none` when the node itself is
removed. -/
def decomposeH (bad : List String) : Html → Option Html
  | .text s => some (.text s)
  | .elem t a cs =>
    if bad.contains t then none else some (.elem t a (decomposeL bad cs))
def decomposeL (bad : List String) : HtmlList → HtmlList
  | .nil => .nil
  | .cons h t =>
    match decomposeH bad h with
    | none => decomposeL bad t
    | some h2 => .cons h2 (decomposeL bad t)
end

mutual
/-- `tag.get_text()`: the concatenation of all text-node descendants in
document order. -/
def getTextH : Html → String
  | .text s => s
  | .elem _ _ cs => getTextL cs
def getTextL : HtmlList → String
  | .nil => ""
  | .cons h t => getTextH h ++ getTextL t
end

mutual
/-- `soup.find(...)`: first node in pre-order document order whose tag and
attributes satisfy `p` (a found element is checked before its
descendants). -/
def findH (p : String → List (String × String) → Bool) : Html → Option Html
  | .text _ => none
  | .elem t a cs => if p t a then some (.elem t a cs) else findL p cs
def findL (p : String → List (String × String) → Bool) : HtmlList → Option Html
  | .nil => none
  | .cons h rest =>
    match findH p h with
    | some r => some r
    | none => findL p rest
end

mutual
/-- `tag.find_all(...)` collection over a node and its descendants in
document order, keeping elements whose tag satisfies `p`. -/
def findAllH (p : String → Bool) : Html → List Html
  | .text _ => []
  | .elem t a cs => (if p t then [Html.elem t a cs] else []) ++ findAllL p cs
def findAllL (p : String → Bool) : HtmlList → List Html
  | .nil => []
  | .cons h rest => findAllH p h ++ findAllL p rest
end

/-- `main_content.find_all([...])`: `find_all` searches the descendants of
the element, excluding the element itself. -/
def findAllChildren (p : String → Bool) : Html → List Html
  | .text _ => []
  | .elem _ _ cs => findAllL p cs

/-- Attribute lookup on an element's attribute list. -/
def getAttr (attrs : List (String × String)) (k : String) : Option String :=
  (attrs.find? (fun kv => kv.1 == k)).map (fun kv => kv.2)

/-- Python's `needle in hay` substring test, over character lists. -/
def containsSub (needle : List Char) : List Char → Bool
  | [] => needle.isEmpty
  | c :: cs => needle.isPrefixOf (c :: cs) || containsSub needle cs

/-- Python's `needle in hay` substring test on strings. -/
def strContains (hay needle : String) : Bool :=
  containsSub needle.toList hay.toList

/-- Python's `s.startswith(pre)`. -/
def startsWithStr (s pre : String) : Bool :=
  pre.toList.isPrefixOf s.toList

/-- Python's `s.lower()`, character by character (ASCII model). -/
def lowerStr (s : String) : String :=
  String.mk (s.toList.map Char.toLower)

/-- Python's `s.strip()` on strings. -/
def stripStr (s : String) : String :=
  String.mk (stripList s.toList)

/-- Counts the words of `len(text.split())`: number of maximal
non-whitespace runs.  The flag records whether the previous character was
part of a word. -/
def wordCountAux : Bool → List Char → Nat
  | _, [] => 0
  | inWord, c :: cs =>
    if c.isWhitespace then wordCountAux false cs
    else (if inWord then 0 else 1) + wordCountAux true cs

/-- `len(text.split())` from app.py line 184. -/
def wordCount (s : String) : Nat :=
  wordCountAux false s.toList

/-- `'#' * int(tag.name[1])` for a heading tag `h1`-`h4`
(app.py lines 181-182). -/
def headingMarker (t : String) : String :=
  if t == "h1" then "#" else if t == "h2" then "##"
  else if t == "h3" then "###" else "####"

/-- The class-attribute test of
`soup.find('div', class_=re.compile(r'content|main|article', re.I))`
(app.py line 162): the element has a `class` attribute one of whose
space-separated tokens contains `content`, `main` or `article`
case-insensitively — since none of the three words contains a space, this
is equivalent to a substring search on the whole attribute value. -/
def classMatches (attrs : List (String × String)) : Bool :=
  match getAttr attrs "class" with
  | none => false
  | some v =>
    strContains (lowerStr v) "content" || strContains (lowerStr v) "main"
      || strContains (lowerStr v) "article"

/-- The per-tag body of the extraction loop (app.py lines 168-185):
`text = tag.get_text().strip()`; skip it when shorter than 10 characters
or containing a boilerplate marker; emit `'#'*level + ' ' + text` for a
heading unless its lowercase text starts with `menu`/`navigation`/`footer`;
emit the bare text for `p`/`div` when it has more than 5 words. -/
def blockFilter (tag : Html) : Option String :=
  match tag with
  | .text _ => none
  | .elem name _ _ =>
    let text := stripStr (getTextH tag)
    if text.length < 10 then none
    else if strContains (lowerStr text) "cookie"
        || strContains (lowerStr text) "advertisement"
        || strContains (lowerStr text) "subscribe"
        || strContains (lowerStr text) "newsletter" then none
    else if name == "h1" || name == "h2" || name == "h3" || name == "h4" then
      if !(text == "")
          && !(startsWithStr (lowerStr text) "menu"
            || startsWithStr (lowerStr text) "navigation"
            || startsWithStr (lowerStr text) "footer") then
        some (headingMarker name ++ " " ++ text)
      else none
    else
      if !(text == "") && decide (5 < wordCount text) then some text else none

/-- `"\n\n".join(content)` (app.py line 187). -/
def joinBlocks : List String → String
  | [] => ""
  | [b] => b
  | b :: bs => b ++ "\n\n" ++ joinBlocks bs

/-- The tags decomposed before extraction (app.py lines 145-146). -/
def badTags : List String := ["script", "style", "nav", "footer", "header"]

/-- The title block appended at app.py lines 150-155: `title =
soup.find('title')`; `if title:` — a found `bs4.Tag` is always truthy, so
the condition tests presence of a `<title>` element only — append
`f"# {title.get_text().strip()}"`, else append
`f"# Scraped Content from {parsed_url.netloc}"`. -/
def scrape_title_block (netloc : String) (soup2 : HtmlList) : String :=
  match findL (fun t _ => t == "title") soup2 with
  | some tt => "# " ++ stripStr (getTextH tt)
  | none => "# Scraped Content from " ++ netloc

/-- The `main_content` selection at app.py lines 159-164: first of
`soup.find('main')`, `soup.find('article')`, the class-matching `div`,
`soup.find('body')`. -/
def scrape_main_content (soup2 : HtmlList) : Option Html :=
  match findL (fun t _ => t == "main") soup2 with
  | some m => some m
  | none =>
    match findL (fun t _ => t == "article") soup2 with
    | some m => some m
    | none =>
      match findL (fun t a => t == "div" && classMatches a) soup2 with
      | some m => some m
      | none => findL (fun t _ => t == "body") soup2

/-- The block-collection loop at app.py lines 166-185: `if main_content:`
(a found Tag is truthy), then the `find_all` walk over
`h1`-`h4`/`p`/`div` descendants through `blockFilter`. -/
def scrape_blocks (soup2 : HtmlList) : List String :=
  match scrape_main_content soup2 with
  | none => []
  | some m =>
    (findAllChildren (fun t => t == "h1" || t == "h2" || t == "h3"
      || t == "h4" || t == "p" || t == "div") m).filterMap blockFilter

/-- `scrape_webpage` from app.py lines 142-187, starting after the fetch:
the network request, `response.raise_for_status()` and
`urlparse(url).netloc` are external (the parsed document enters as `soup`,
the parsed host as `netloc`).  The `content` list is the title block
followed by the collected content blocks; the result is
`"\n\n".join(content) if content else` the sentinel string
(app.py line 187). -/
def scrape_webpage (netloc : String) (soup : HtmlList) : String :=
  let soup2 := decomposeL badTags soup
  let content := scrape_title_block netloc soup2 :: scrape_blocks soup2
  if content.isEmpty then "No content could be extracted from this webpage."
  else joinBlocks content

theorem joinBlocks_cons (b : String) (bs : List String) :
    ∃ y, joinBlocks (b :: bs) = b ++ y := by
  cases bs with
  | nil =>
    refine ⟨"", ?_⟩
    show b = b ++ ""
    rw [String.append_empty]
  | cons c cs =>
    refine ⟨"\n\n" ++ joinBlocks (c :: cs), ?_⟩
    rw [show joinBlocks (b :: c :: cs) = b ++ "\n\n" ++ joinBlocks (c :: cs) from rfl,
      String.append_assoc]

theorem hash_prefix_ne_sentinel (y : String) :
    ("# " ++ y) ≠ "No content could be extracted from this webpage." := by
  intro h
  have h2 : ("# " ++ y).data
      = ("No content could be extracted from this webpage." : String).data := by rw [h]
  rw [String.data_append,
    show ("# " : String).data = '#' :: [' '] from rfl,
    show ("No content could be extracted from this webpage." : String).data
      = 'N' :: ("o content could be extracted from this webpage." : String).data from rfl,
    List.cons_append] at h2
  injection h2 with h3 _
  exact absurd h3 (by decide)

/-- `scrape_webpage` always takes the join branch: the `content` list
starts with the title block, so it is never empty. -/
theorem scrape_webpage_eq (netloc : String) (soup : HtmlList) :
    scrape_webpage netloc soup
      = joinBlocks (scrape_title_block netloc (decomposeL badTags soup)
          :: scrape_blocks (decomposeL badTags soup)) := rfl

/-- Whatever the document, the title block starts with the two characters
`# `. -/
theorem scrape_title_block_form (netloc : String) (soup2 : HtmlList) :
    ∃ x, scrape_title_block netloc soup2 = "# " ++ x := by
  unfold scrape_title_block
  cases findL (fun t _ => t == "title") soup2 with
  | some tt => exact ⟨stripStr (getTextH tt), rfl⟩
  | none =>
    refine ⟨"Scraped Content from " ++ netloc, ?_⟩
    rw [show ("# Scraped Content from " : String) = "# " ++ "Scraped Content from " from rfl,
      String.append_assoc]

/-- The webpage of claim C4: a body containing only a `<nav>` with text
and a `<footer>` with text. -/
def navFooterSoup : HtmlList := HtmlList.ofList [Html.elem "html" [] (HtmlList.ofList
  [Html.elem "body" [] (HtmlList.ofList
    [Html.elem "nav" [] (HtmlList.ofList [Html.text "Home About Contact Links"]),
     Html.elem "footer" [] (HtmlList.ofList [Html.text "Copyright notice example corp"])])])]

/-- C4 counterexample: on HTML whose body contains only a `<nav>` with
text and a `<footer>` with text, `scrape_webpage` does **not** return the
sentinel 'No content could be extracted' — it returns the synthesized
title block alone, because the title (or fallback title) block is appended
unconditionally before the emptiness check, making the sentinel branch
unreachable. -/
theorem C4_counterexample_nav_footer :
    scrape_webpage "example.com" navFooterSoup = "# Scraped Content from example.com"
    ∧ scrape_webpage "example.com" navFooterSoup
        ≠ "No content could be extracted from this webpage." := by
  constructor
  · rfl
  · decide

/-- C4 (amended): if no content blocks survive filtering, `scrape_webpage`
returns just the title block (page title or synthesized fallback), and in
fact on **no** input does it return the 'No content could be extracted'
sentinel: the result always starts with `# `, so the sentinel branch is
dead code. -/
theorem C4_amended_never_sentinel (netloc : String) (soup : HtmlList) :
    (∃ y, scrape_webpage netloc soup = "# " ++ y)
    ∧ scrape_webpage netloc soup ≠ "No content could be extracted from this webpage." := by
  have hform : ∃ y, scrape_webpage netloc soup = "# " ++ y := by
    rcases scrape_title_block_form netloc (decomposeL badTags soup) with ⟨x, hx⟩
    rcases joinBlocks_cons (scrape_title_block netloc (decomposeL badTags soup))
      (scrape_blocks (decomposeL badTags soup)) with ⟨z, hz⟩
    refine ⟨x ++ z, ?_⟩
    rw [scrape_webpage_eq, hz, hx, String.append_assoc]
  rcases hform with ⟨y, hy⟩
  exact ⟨⟨y, hy⟩, by rw [hy]; exact hash_prefix_ne_sentinel y⟩

/-- Closed instance of the amended C4 at a concrete input. -/
theorem C4_amended_never_sentinel_witness :
    (∃ y, scrape_webpage "example.com" navFooterSoup = "# " ++ y)
    ∧ scrape_webpage "example.com" navFooterSoup
        ≠ "No content could be extracted from this webpage." :=
  C4_amended_never_sentinel "example.com" navFooterSoup

/-- The webpage of the C8 counterexample: a `<title>` element is present
but its text is empty, and there is no body. -/
def emptyTitleSoup : HtmlList := HtmlList.ofList [Html.elem "html" [] (HtmlList.ofList
  [Html.elem "head" [] (HtmlList.ofList [Html.elem "title" [] HtmlList.nil])])]

/-- C8 counterexample: with a present-but-empty `<title>`, the claim says
the fallback `"Scraped Content from {host}"` is used; the code only tests
presence (`if title:` on an always-truthy Tag), so the title branch runs
and the result is the bare block `"# "`, not the fallback. -/
theorem C8_counterexample_empty_title :
    scrape_webpage "example.com" emptyTitleSoup = "# "
    ∧ scrape_webpage "example.com" emptyTitleSoup
        ≠ "# Scraped Content from example.com" := by
  constructor
  · rfl
  · decide

/-- C8 (amended): the extractor's first content block is the title block;
it is `"# "` followed by the stripped `<title>` text whenever a `<title>`
element is present — **regardless of whether its text is empty** — and the
synthesized fallback `"# Scraped Content from {host}"` only when no title
element exists. -/
theorem C8_amended_title_block (netloc : String) (soup : HtmlList) :
    (∀ tt, findL (fun t _ => t == "title") (decomposeL badTags soup) = some tt →
      scrape_title_block netloc (decomposeL badTags soup) = "# " ++ stripStr (getTextH tt))
    ∧ (findL (fun t _ => t == "title") (decomposeL badTags soup) = none →
      scrape_title_block netloc (decomposeL badTags soup)
        = "# Scraped Content from " ++ netloc)
    ∧ scrape_webpage netloc soup
      = joinBlocks (scrape_title_block netloc (decomposeL badTags soup)
          :: scrape_blocks (decomposeL badTags soup)) := by
  refine ⟨?_, ?_, scrape_webpage_eq netloc soup⟩
  · intro tt htt
    unfold scrape_title_block
    rw [htt]
  · intro hnone
    unfold scrape_title_block
    rw [hnone]

/-- A page with a non-empty `<title>`, for the C8 witness. -/
def titledSoup : HtmlList :=
  HtmlList.ofList [Html.elem "title" [] (HtmlList.ofList [Html.text "My Page Title"])]

/-- Closed instance of the amended C8 at a concrete input with a title
element present. -/
theorem C8_amended_title_block_witness :
    scrape_title_block "example.com" (decomposeL badTags titledSoup)
      = "# " ++ stripStr (getTextH (Html.elem "title" []
          (HtmlList.ofList [Html.text "My Page Title"]))) :=
  (C8_amended_title_block "example.com" titledSoup).1
    (Html.elem "title" [] (HtmlList.ofList [Html.text "My Page Title"])) rfl
